import Mathlib

/-!
Verification of the return-estimation module of a portfolio library
(`pypfopt/expected_returns.py`).

Modelling conventions:
* Python floats are modelled as exact real numbers (`ℝ`); the spec's
  "within floating tolerance" becomes exact equality of the ideal values.
* A pandas DataFrame of prices/returns is modelled positionally as a list
  of columns, each column a `List ℝ` of values in ascending date order
  (column labels play no role in the claims, which are cell-wise).
* `pct_change` leaves a missing value in the first date row only (for
  inputs without missing data), so the source's
  `prices.pct_change().dropna(how="all")` is embedded as the transform that
  pairs each value with its predecessor and drops the first row.
* A spark DataFrame column is modelled as a list of `(date_index, value)`
  pairs in arbitrary order; the `Window.orderBy("date_index")` sort is
  embedded explicitly, and a cell whose lag is undefined (the first record
  in date order) is `none`.
-/

namespace PyPfOpt

noncomputable section

/-- One column of `prices.pct_change().dropna(how="all")`: pairs every value
with its predecessor, giving `p[t]/p[t-1] - 1` for `t = 1, …, n-1` (the first
date row, whose change is undefined, is dropped). -/
def pctChangeCol (p : List ℝ) : List ℝ :=
  List.zipWith (fun cur prev => cur / prev - 1) p.tail p

/-- `returns_from_prices(prices, log_returns)` on the non-distributed (pandas)
path: `np.log(1 + prices.pct_change()).dropna(how="all")` when `log_returns`,
else `prices.pct_change().dropna(how="all")`, applied column-wise. -/
def returns_from_prices (log_returns : Bool) (prices : List (List ℝ)) :
    List (List ℝ) :=
  if log_returns then
    (prices.map pctChangeCol).map (List.map (fun r => Real.log (1 + r)))
  else
    prices.map pctChangeCol

/-- `ret.iloc[0] = 1` on one column: the first entry is overwritten with 1. -/
def setHead1 : List ℝ → List ℝ
  | [] => []
  | _ :: xs => 1 :: xs

/-- `cumprod` of one column: entry `t` is the product of entries `0, …, t`. -/
def cumprod : List ℝ → List ℝ
  | [] => []
  | x :: xs => x :: (cumprod xs).map (fun y => x * y)

/-- `prices_from_returns(returns, log_returns)`: exponentiate log returns or
offset percentage returns by 1, anchor the first row at 1, and take the
column-wise cumulative product. -/
def prices_from_returns (log_returns : Bool) (returns : List (List ℝ)) :
    List (List ℝ) :=
  let ret :=
    if log_returns then returns.map (List.map Real.exp)
    else returns.map (List.map (fun r => 1 + r))
  (ret.map setHead1).map cumprod

/-- `x.mean()` of one series (no missing values, so the count is the length). -/
def mean (xs : List ℝ) : ℝ := xs.sum / xs.length

/-- The shared annualization step: `(1 + x).prod() ** (frequency / x.count()) - 1`
when compounding, else `x.mean() * frequency`, applied to one return series.
This is the formula the source repeats verbatim in `mean_historical_return`
and for `mkt_mean_ret` in `capm_return`. -/
def annualize (compounding : Bool) (frequency : ℝ) (c : List ℝ) : ℝ :=
  if compounding then
    ((c.map (fun r => 1 + r)).prod) ^ (frequency / (c.length : ℝ)) - 1
  else
    mean c * frequency

/-- `mean_historical_return(prices, returns_data, compounding, frequency)`:
take returns as given or compute them from prices (non-log), then annualize
each column. -/
def mean_historical_return (returns_data compounding : Bool) (frequency : ℝ)
    (prices : List (List ℝ)) : List ℝ :=
  let returns := if returns_data then prices else returns_from_prices false prices
  returns.map (annualize compounding frequency)

/-- The pandas `ewm(span).mean()` value at position `t` of series `xs`
(default `adjust=True`): the weighted average of `xs[0..t]` with weights
`(1-alpha)^i` on the observation `i` steps before `t`, `alpha = 2/(span+1)`. -/
def ewmMeanAt (alpha : ℝ) (xs : List ℝ) (t : ℕ) : ℝ :=
  let pre := xs.take (t + 1)
  let ws := (List.range pre.length).map (fun i => (1 - alpha) ^ i)
  (List.zipWith (fun w x => w * x) ws pre.reverse).sum / ws.sum

/-- The full series `xs.ewm(span=span).mean()`. -/
def ewmMean (span : ℝ) (xs : List ℝ) : List ℝ :=
  (List.range xs.length).map (ewmMeanAt (2 / (span + 1)) xs)

/-- `.iloc[-1]` of one series (the source never applies it to an empty one). -/
def ilocLast (xs : List ℝ) : ℝ := xs.getLastD 0

/-- `ema_historical_return(prices, returns_data, compounding, span, frequency)`:
`(1 + returns.ewm(span=span).mean().iloc[-1]) ** frequency - 1` per column when
compounding, else `returns.ewm(span=span).mean().iloc[-1] * frequency`. -/
def ema_historical_return (returns_data compounding : Bool) (span frequency : ℝ)
    (prices : List (List ℝ)) : List ℝ :=
  let returns := if returns_data then prices else returns_from_prices false prices
  if compounding then
    returns.map (fun c => (1 + ilocLast (ewmMean span c)) ^ frequency - 1)
  else
    returns.map (fun c => ilocLast (ewmMean span c) * frequency)

/-- Pandas sample covariance (`ddof = 1`) of two aligned series, as produced
by `DataFrame.cov()`. -/
def covS (x y : List ℝ) : ℝ :=
  (List.zipWith (fun a b => (a - mean x) * (b - mean y)) x y).sum
    / ((x.length : ℝ) - 1)

/-- `returns.mean(axis=1)`: the row-wise (cross-sectional) mean across the
columns, one value per date row (row count taken from the first column of a
rectangular frame). -/
def rowMean (cols : List (List ℝ)) : List ℝ :=
  (List.range (cols.headD []).length).map
    (fun t => (cols.map (fun c => c.getD t 0)).sum / (cols.length : ℝ))

/-- The combined (assets + market) frame `capm_return` builds: with no market
series, `returns["mkt"] = returns.mean(axis=1)` appends the row-wise mean as a
new right-most column; with a supplied market series, the left join on the
shared date index appends it as the right-most column (dates aligned). -/
def capmCombined (market_returns : Option (List ℝ)) (returns : List (List ℝ)) :
    List (List ℝ) :=
  match market_returns with
  | none => returns ++ [rowMean returns]
  | some m => returns ++ [m]

/-- `capm_return(prices, market_prices, returns_data, risk_free_rate,
compounding, frequency)`: compute returns (non-log) unless given, build the
combined frame with the market as the right-most column, form the covariance
matrix `returns.cov()`, read betas off its market column
(`cov["mkt"] / cov.loc["mkt","mkt"]`, with the market's own row dropped),
annualize the market column, and apply the CAPM pricing equation. -/
def capm_return (returns_data : Bool) (market_prices : Option (List ℝ))
    (risk_free_rate : ℝ) (compounding : Bool) (frequency : ℝ)
    (prices : List (List ℝ)) : List ℝ :=
  let returns := if returns_data then prices else returns_from_prices false prices
  let market_returns :=
    if returns_data then market_prices
    else market_prices.map pctChangeCol
  let combined := capmCombined market_returns returns
  let covMat := combined.map (fun ci => combined.map (fun cj => covS ci cj))
  let mkt := combined.getLastD []
  let betas :=
    (covMat.map (fun row => row.getLastD 0 / (covMat.getLastD []).getLastD 0)).dropLast
  let mktMeanRet := annualize compounding frequency mkt
  betas.map (fun b => risk_free_rate + b * (mktMeanRet - risk_free_rate))

/-- Insert one `(date_index, value)` record into a date-sorted list. -/
def insertByDate (r : ℕ × ℝ) : List (ℕ × ℝ) → List (ℕ × ℝ)
  | [] => [r]
  | s :: rest => if r.1 ≤ s.1 then r :: s :: rest else s :: insertByDate r rest

/-- The `Window.orderBy("date_index")` sort of the records of one spark
column: insertion sort on the date key. -/
def sortByDate : List (ℕ × ℝ) → List (ℕ × ℝ)
  | [] => []
  | r :: rest => insertByDate r (sortByDate rest)

/-- `returns_from_prices` on the distributed (spark) path, for one asset
column of `(date_index, price)` records (the source applies the identical
transform independently to each asset column). In date order, each record is
paired with its lag-1 predecessor (`F.lag` over the date-ordered window; the
first record has no lag and its cell is null, i.e. `none`), the percentage
return `(p - lag)/lag` is formed, and on the log path `log(1 + r)` is applied
to it. -/
def sparkReturnsCol (log_returns : Bool) (rows : List (ℕ × ℝ)) :
    List (ℕ × Option ℝ) :=
  let s := sortByDate rows
  let vals := s.map Prod.snd
  let pct : List (Option ℝ) :=
    none :: (List.zipWith (fun cur prev => (cur - prev) / prev) vals.tail vals).map some
  let rets :=
    if log_returns then pct.map (Option.map (fun r => Real.log (1 + r))) else pct
  List.zipWith (fun dr r => (dr.1, r)) s rets

/-- A price input as `returns_from_prices` dynamically receives it: either a
pandas frame (list of columns) or a spark frame, the latter carrying a flag
for whether a `date_index` column is present, plus its asset columns as
`(date_index, price)` records. -/
inductive PFrame where
  | pandasDF (cols : List (List ℝ))
  | sparkDF (hasDateIndex : Bool) (cols : List (List (ℕ × ℝ)))

/-- A returns output: pandas frame, or spark frame whose first record per
column (in date order) carries a null cell. -/
inductive RFrame where
  | pandasR (cols : List (List ℝ))
  | sparkR (cols : List (List (ℕ × Option ℝ)))

/-- The full `returns_from_prices(prices, log_returns, is_spark)` with its two
input checks. With `is_spark`, a pandas frame raises
(`RuntimeError("Loading a non-spark dataframe …")`), a spark frame without a
`date_index` column raises (`RuntimeError("Loading a spark dataframe …")`),
and otherwise the per-column spark transform runs. Without `is_spark` the
source applies the pandas operations to whatever it was given, which on a
spark frame fails dynamically at the first pandas attribute access; that
dynamic failure is embedded as the final error case. -/
def returns_from_prices_checked (log_returns is_spark : Bool) :
    PFrame → Except String RFrame
  | .pandasDF cols =>
    if is_spark then
      .error "Loading a non-spark dataframe to a spark session is not supported!"
    else
      .ok (.pandasR (returns_from_prices log_returns cols))
  | .sparkDF hasDateIndex cols =>
    if is_spark then
      if hasDateIndex then
        .ok (.sparkR (cols.map (sparkReturnsCol log_returns)))
      else
        .error "Loading a spark dataframe without a 'date_index' column is not supported!"
    else
      .error "AttributeError: the pandas operations are not defined on a spark dataframe"

/-- The keyword arguments `return_model` forwards unchanged to the estimator
it dispatches to. -/
structure Kwargs where
  returnsData : Bool
  compounding : Bool
  frequency : ℝ
  span : ℝ
  marketPrices : Option (List ℝ)
  riskFreeRate : ℝ

/-- `return_model(prices, method, **kwargs)`: route the three recognized model
names to their estimators, forwarding the keyword arguments unchanged, and
raise `NotImplementedError("Return model {method} not implemented")` for any
other name. -/
def return_model (method : String) (prices : List (List ℝ)) (kw : Kwargs) :
    Except String (List ℝ) :=
  if method = "mean_historical_return" then
    .ok (mean_historical_return kw.returnsData kw.compounding kw.frequency prices)
  else if method = "ema_historical_return" then
    .ok (ema_historical_return kw.returnsData kw.compounding kw.span kw.frequency prices)
  else if method = "capm_return" then
    .ok (capm_return kw.returnsData kw.marketPrices kw.riskFreeRate kw.compounding
      kw.frequency prices)
  else
    .error ("Return model " ++ method ++ " not implemented")

/-- The contents of the caller's `prices` frame after `capm_return` returns.
Modelled from the source's object semantics: with `returns_data` true the
assignment `returns = prices` aliases the caller's frame, and when no market
series is supplied the source then executes the in-place column assignment
`returns["mkt"] = returns.mean(axis=1)` on that shared object; on every other
path the caller's object is only read (`returns = returns.join(...)` rebinds
the local name to a fresh frame, and with `returns_data` false the mutated
frame is the freshly computed returns frame). -/
def capm_caller_prices_after (returns_data : Bool)
    (market_prices : Option (List ℝ)) (prices : List (List ℝ)) :
    List (List ℝ) :=
  if returns_data then
    match market_prices with
    | none => prices ++ [rowMean prices]
    | some _ => prices
  else prices

/-! ### Helper lemmas -/

lemma zipWith_cons_getD (f : ℝ → ℝ → ℝ) :
    ∀ (l : List ℝ) (a : ℝ) (t : ℕ), t + 1 < (a :: l).length →
      (List.zipWith f l (a :: l)).getD t 0 =
        f ((a :: l).getD (t + 1) 0) ((a :: l).getD t 0) := by
  intro l
  induction l with
  | nil => intro a t h; simp at h
  | cons b l2 ih =>
    intro a t h
    cases t with
    | zero => simp
    | succ s =>
      have hs : s + 1 < (b :: l2).length := by
        simp only [List.length_cons] at h ⊢
        omega
      simpa using ih b s hs

lemma getD_zipWith_tail (f : ℝ → ℝ → ℝ) (l : List ℝ) (t : ℕ)
    (h : t + 1 < l.length) :
    (List.zipWith f l.tail l).getD t 0 =
      f (l.getD (t + 1) 0) (l.getD t 0) := by
  cases l with
  | nil => simp at h
  | cons a l2 => simpa using zipWith_cons_getD f l2 a t h

lemma pctChangeCol_length (p : List ℝ) :
    (pctChangeCol p).length = p.length - 1 := by
  simp only [pctChangeCol, List.length_zipWith, List.length_tail]
  omega

lemma pctChangeCol_getD (p : List ℝ) (t : ℕ) (h : t + 1 < p.length) :
    (pctChangeCol p).getD t 0 = p.getD (t + 1) 0 / p.getD t 0 - 1 :=
  getD_zipWith_tail (fun cur prev => cur / prev - 1) p t h

lemma getD_map_gen {α β : Type} (f : α → β) (l : List α) (j : ℕ) (d : α)
    (e : β) (hj : j < l.length) :
    (l.map f).getD j e = f (l.getD j d) := by
  rw [List.getD_eq_getElem _ _ (by simpa using hj), List.getElem_map,
    List.getD_eq_getElem _ _ hj]

lemma getD_map_lists (f : List ℝ → List ℝ) (cols : List (List ℝ)) (j : ℕ)
    (hj : j < cols.length) :
    (cols.map f).getD j [] = f (cols.getD j []) :=
  getD_map_gen f cols j [] [] hj

lemma getD_map_real (g : ℝ → ℝ) (l : List ℝ) (t : ℕ) (ht : t < l.length) :
    (l.map g).getD t 0 = g (l.getD t 0) := by
  rw [List.getD_eq_getElem _ _ (by simpa using ht), List.getElem_map,
    List.getD_eq_getElem _ _ ht]

/-! ### C1 -/

/-- C1: on the non-distributed path, `returns_from_prices` of a price matrix
with at least two date rows and positive values has the same number of
columns, exactly one row fewer than the input, and cell-wise value
`p[t+1]/p[t] - 1` (percentage) resp. `ln(p[t+1]/p[t])` (log). -/
theorem returns_from_prices_cellwise (lg : Bool) (cols : List (List ℝ))
    (n j t : ℕ) (hn : 2 ≤ n) (hlen : ∀ c ∈ cols, c.length = n)
    (hpos : ∀ c ∈ cols, ∀ x ∈ c, (0 : ℝ) < x)
    (hj : j < cols.length) (ht : t + 1 < n) :
    (returns_from_prices lg cols).length = cols.length ∧
    ((returns_from_prices lg cols).getD j []).length = n - 1 ∧
    ((returns_from_prices lg cols).getD j []).getD t 0 =
      (if lg then
        Real.log ((cols.getD j []).getD (t + 1) 0 / (cols.getD j []).getD t 0)
      else
        (cols.getD j []).getD (t + 1) 0 / (cols.getD j []).getD t 0 - 1) := by
  have hcj : cols.getD j [] ∈ cols := by
    rw [List.getD_eq_getElem _ _ hj]
    exact List.getElem_mem hj
  have hclen : (cols.getD j []).length = n := hlen _ hcj
  have htlt : t + 1 < (cols.getD j []).length := by omega
  cases lg with
  | false =>
    refine ⟨by simp [returns_from_prices], ?_, ?_⟩
    · rw [returns_from_prices, if_neg (by simp), getD_map_lists _ _ _ hj,
        pctChangeCol_length, hclen]
    · rw [returns_from_prices, if_neg (by simp), getD_map_lists _ _ _ hj,
        pctChangeCol_getD _ _ htlt]
      simp
  | true =>
    have hmap : (returns_from_prices true cols).getD j [] =
        (pctChangeCol (cols.getD j [])).map (fun r => Real.log (1 + r)) := by
      rw [returns_from_prices, if_pos rfl, List.map_map,
        getD_map_lists ((List.map fun r => Real.log (1 + r)) ∘ pctChangeCol)
          cols j hj]
      rfl
    refine ⟨by simp [returns_from_prices], ?_, ?_⟩
    · rw [hmap, List.length_map, pctChangeCol_length, hclen]
    · rw [hmap, getD_map_real _ _ _ (by rw [pctChangeCol_length]; omega),
        pctChangeCol_getD _ _ htlt]
      simp only [if_pos rfl]
      congr 1
      ring

/-- Witness for C1 at the concrete price column `[1, 2]`. -/
theorem returns_from_prices_cellwise_witness :
    (returns_from_prices false [[(1 : ℝ), 2]]).length = [[(1 : ℝ), 2]].length ∧
    ((returns_from_prices false [[(1 : ℝ), 2]]).getD 0 []).length = 2 - 1 ∧
    ((returns_from_prices false [[(1 : ℝ), 2]]).getD 0 []).getD 0 0 =
      (if false then
        Real.log (([[(1 : ℝ), 2]].getD 0 []).getD 1 0 /
          ([[(1 : ℝ), 2]].getD 0 []).getD 0 0)
      else
        ([[(1 : ℝ), 2]].getD 0 []).getD 1 0 /
          ([[(1 : ℝ), 2]].getD 0 []).getD 0 0 - 1) :=
  returns_from_prices_cellwise false [[(1 : ℝ), 2]] 2 0 0 (by norm_num)
    (by intro c hc; rw [List.mem_singleton] at hc; rw [hc]; rfl)
    (by
      intro c hc x hx
      rw [List.mem_singleton] at hc
      subst hc
      simp only [List.mem_cons] at hx
      rcases hx with rfl | rfl | hx
      · norm_num
      · norm_num
      · simp at hx)
    (by norm_num) (by norm_num)

/-! ### C2 -/

/-- C2: `mean_historical_return` on a returns matrix gives per asset
`prod(1 + r_t) ^ (frequency / count) - 1` when compounding and
`mean(r_t) * frequency` otherwise; for the single-asset price series
`[100, 110, 121]` with `frequency = 2` it gives `0.21` with compounding and
`0.20` without. -/
theorem mean_historical_return_spec (comp : Bool) (freq : ℝ)
    (rets : List (List ℝ)) (j : ℕ) (hj : j < rets.length) :
    (mean_historical_return true comp freq rets).getD j 0 =
      (if comp then
        ((rets.getD j []).map (fun r => 1 + r)).prod ^
          (freq / ((rets.getD j []).length : ℝ)) - 1
      else
        (rets.getD j []).sum / ((rets.getD j []).length : ℝ) * freq) ∧
    mean_historical_return false true 2 [[(100 : ℝ), 110, 121]] = [21 / 100] ∧
    mean_historical_return false false 2 [[(100 : ℝ), 110, 121]] = [1 / 5] := by
  refine ⟨?_, ?_, ?_⟩
  · rw [show mean_historical_return true comp freq rets =
        rets.map (annualize comp freq) from rfl,
      getD_map_gen (annualize comp freq) rets j [] 0 hj]
    cases comp <;> simp [annualize, mean]
  · have hret : returns_from_prices false [[(100 : ℝ), 110, 121]] =
        [[(110 : ℝ) / 100 - 1, 121 / 110 - 1]] := by
      simp [returns_from_prices, pctChangeCol]
    rw [show mean_historical_return false true 2 [[(100 : ℝ), 110, 121]] =
        (returns_from_prices false [[(100 : ℝ), 110, 121]]).map
          (annualize true 2) from rfl, hret]
    have hbase : ((1 : ℝ) + (110 / 100 - 1)) * ((1 + (121 / 110 - 1)) * 1) =
        121 / 100 := by norm_num
    simp only [annualize, List.map_cons, List.map_nil, List.prod_cons,
      List.prod_nil, if_pos rfl, List.length_cons, List.length_nil, hbase]
    norm_num [Real.rpow_one]
  · have hret : returns_from_prices false [[(100 : ℝ), 110, 121]] =
        [[(110 : ℝ) / 100 - 1, 121 / 110 - 1]] := by
      simp [returns_from_prices, pctChangeCol]
    rw [show mean_historical_return false false 2 [[(100 : ℝ), 110, 121]] =
        (returns_from_prices false [[(100 : ℝ), 110, 121]]).map
          (annualize false 2) from rfl, hret]
    norm_num [annualize, mean]

/-- Witness for C2 at the concrete returns column `[0.1, 0.1]` with
`frequency = 2` and compounding. -/
theorem mean_historical_return_spec_witness :
    (mean_historical_return true true 2 [[(1 / 10 : ℝ), 1 / 10]]).getD 0 0 =
      (if true then
        (([[(1 / 10 : ℝ), 1 / 10]].getD 0 []).map (fun r => 1 + r)).prod ^
          ((2 : ℝ) / ((([[(1 / 10 : ℝ), 1 / 10]].getD 0 []).length : ℕ) : ℝ)) - 1
      else
        ([[(1 / 10 : ℝ), 1 / 10]].getD 0 []).sum /
          ((([[(1 / 10 : ℝ), 1 / 10]].getD 0 []).length : ℕ) : ℝ) * 2) ∧
    mean_historical_return false true 2 [[(100 : ℝ), 110, 121]] = [21 / 100] ∧
    mean_historical_return false false 2 [[(100 : ℝ), 110, 121]] = [1 / 5] :=
  mean_historical_return_spec true 2 [[(1 / 10 : ℝ), 1 / 10]] 0 (by norm_num)

/-! ### C3 -/

lemma capmCombined_eq_concat (mr : Option (List ℝ)) (rets : List (List ℝ)) :
    capmCombined mr rets = rets ++ [mr.getD (rowMean rets)] := by
  cases mr <;> rfl

/-- C3: `capm_return` returns one value per asset column (the market's
self-entry is excluded), and per asset the value is
`risk_free_rate + beta * (market_annualized_return - risk_free_rate)` with
`beta = cov(asset, market) / var(market)` taken from the covariance matrix of
the combined assets-plus-market columns, the market's annualized return being
computed by the same compounding/arithmetic rule as the historical mean
estimator. -/
theorem capm_return_spec (rd : Bool) (mp : Option (List ℝ)) (rf : ℝ)
    (comp : Bool) (freq : ℝ) (prices rets : List (List ℝ)) (mkt : List ℝ)
    (j : ℕ)
    (hrets : rets = if rd then prices else returns_from_prices false prices)
    (hmkt : mkt = ((if rd then mp else mp.map pctChangeCol)).getD (rowMean rets))
    (hj : j < rets.length) :
    (capm_return rd mp rf comp freq prices).length = rets.length ∧
    (capm_return rd mp rf comp freq prices).getD j 0 =
      rf + covS (rets.getD j []) mkt / covS mkt mkt *
        (annualize comp freq mkt - rf) := by
  have hcomb : capmCombined (if rd then mp else mp.map pctChangeCol)
      (if rd then prices else returns_from_prices false prices) =
      rets ++ [mkt] := by
    rw [capmCombined_eq_concat, ← hrets, hmkt]
  have hout : capm_return rd mp rf comp freq prices =
      (rets.map (fun c => covS c mkt / covS mkt mkt)).map
        (fun b => rf + b * (annualize comp freq mkt - rf)) := by
    rw [capm_return]
    simp only [hcomb]
    have hlast : (rets ++ [mkt]).getLastD [] = mkt := List.getLastD_concat _ _ _
    have hcovlast : ((rets ++ [mkt]).map
        (fun ci => (rets ++ [mkt]).map (fun cj => covS ci cj))).getLastD [] =
        (rets ++ [mkt]).map (fun cj => covS mkt cj) := by
      rw [List.map_append]
      simpa using List.getLastD_concat ([] : List ℝ)
        ((rets ++ [mkt]).map (fun cj => covS mkt cj))
        (rets.map (fun ci => (rets ++ [mkt]).map (fun cj => covS ci cj)))
    rw [hlast, hcovlast, List.map_map]
    have hrow : ∀ ci : List ℝ,
        ((fun row => row.getLastD 0 /
            ((rets ++ [mkt]).map (fun cj => covS mkt cj)).getLastD 0) ∘
          (fun ci => (rets ++ [mkt]).map (fun cj => covS ci cj))) ci =
        covS ci mkt / covS mkt mkt := by
      intro ci
      simp only [Function.comp_apply]
      rw [List.map_append, List.map_append]
      rw [show (List.map (fun cj => covS ci cj) [mkt]) = [covS ci mkt] from rfl,
        show (List.map (fun cj => covS mkt cj) [mkt]) = [covS mkt mkt] from rfl,
        List.getLastD_concat, List.getLastD_concat]
    rw [funext hrow, List.map_append]
    rw [show List.map (fun ci => covS ci mkt / covS mkt mkt) [mkt] =
      [covS mkt mkt / covS mkt mkt] from rfl]
    rw [List.dropLast_concat]
  constructor
  · rw [hout]; simp
  · rw [hout, List.map_map,
      getD_map_gen ((fun b => rf + b * (annualize comp freq mkt - rf)) ∘
        (fun c => covS c mkt / covS mkt mkt)) rets j [] 0 hj]
    rfl

/-- Witness for C3: one asset column `[1, 2]` given as returns data, no
market series (so the proxy is the row-wise mean), zero risk-free rate. -/
theorem capm_return_spec_witness :
    (capm_return true none 0 false 1 [[(1 : ℝ), 2]]).length =
      [[(1 : ℝ), 2]].length ∧
    (capm_return true none 0 false 1 [[(1 : ℝ), 2]]).getD 0 0 =
      0 + covS ([[(1 : ℝ), 2]].getD 0 []) (rowMean [[(1 : ℝ), 2]]) /
          covS (rowMean [[(1 : ℝ), 2]]) (rowMean [[(1 : ℝ), 2]]) *
        (annualize false 1 (rowMean [[(1 : ℝ), 2]]) - 0) :=
  capm_return_spec true none 0 false 1 [[(1 : ℝ), 2]] [[(1 : ℝ), 2]]
    (rowMean [[(1 : ℝ), 2]]) 0 rfl rfl (by norm_num)

/-! ### C4 -/

lemma cumprod_ratios (a : ℝ) (q : List ℝ) (ha : a ≠ 0)
    (hq : ∀ x ∈ q, x ≠ 0) :
    cumprod (List.zipWith (fun cur prev => cur / prev) q (a :: q)) =
      q.map (fun x => x / a) := by
  induction q generalizing a with
  | nil => simp [cumprod]
  | cons b q2 ih =>
    have hb : b ≠ 0 := hq b (by simp)
    have hq2 : ∀ x ∈ q2, x ≠ 0 := fun x hx => hq x (by simp [hx])
    have hmul : (fun y => b / a * y) ∘ (fun x => x / b) =
        fun x : ℝ => x / a := by
      funext x
      simp only [Function.comp_apply]
      field_simp
      ring
    simp only [List.zipWith_cons_cons, cumprod, ih b hb hq2, List.map_cons]
    rw [List.map_map, hmul]

lemma zipWith_pct_pos (l1 : List ℝ) :
    ∀ l2 : List ℝ, (∀ a ∈ l1, (0 : ℝ) < a) → (∀ b ∈ l2, (0 : ℝ) < b) →
      ∀ r ∈ List.zipWith (fun cur prev => cur / prev - 1) l1 l2, 0 < 1 + r := by
  induction l1 with
  | nil => intro l2 _ _ r hr; simp at hr
  | cons c l1' ih =>
    intro l2 h1 h2 r hr
    cases l2 with
    | nil => simp at hr
    | cons q l2' =>
      simp only [List.zipWith_cons_cons, List.mem_cons] at hr
      rcases hr with rfl | hr
      · have : (0 : ℝ) < c / q :=
          div_pos (h1 c (by simp)) (h2 q (by simp))
        linarith
      · exact ih l2' (fun a ha => h1 a (by simp [ha]))
          (fun b hb => h2 b (by simp [hb])) r hr

lemma mem_pctChangeCol_pos (p : List ℝ) (hp : ∀ x ∈ p, (0 : ℝ) < x) :
    ∀ r ∈ pctChangeCol p, 0 < 1 + r :=
  zipWith_pct_pos p.tail p (fun a ha => hp a (List.mem_of_mem_tail ha)) hp

lemma roundtrip_col (p : List ℝ) (hp : ∀ x ∈ p, (0 : ℝ) < x) :
    cumprod (setHead1 ((pctChangeCol p).map (fun r => 1 + r))) =
      p.tail.map (fun x => x / p.tail.headD 1) := by
  match p with
  | [] => simp [pctChangeCol, setHead1, cumprod]
  | [p0] => simp [pctChangeCol, setHead1, cumprod]
  | p0 :: p1 :: r =>
    have h1 : p1 ≠ 0 := ne_of_gt (hp p1 (by simp))
    have hr : ∀ x ∈ r, x ≠ 0 := fun x hx => ne_of_gt (hp x (by simp [hx]))
    have hfun : (fun (cur prev : ℝ) => 1 + (cur / prev - 1)) =
        fun cur prev => cur / prev := by
      funext cur prev
      ring
    rw [pctChangeCol, List.map_zipWith, hfun]
    simp only [List.tail_cons, List.zipWith_cons_cons, setHead1, cumprod,
      cumprod_ratios p1 r h1 hr, List.map_cons, List.headD_cons, one_mul,
      List.map_id', div_self h1]

/-- C4 counterexample: at the price matrix with the single column
`[100, 110, 121]`, the percentage round trip does not equal `P / P[0]` (the
result has one row fewer than `P`). -/
theorem prices_returns_roundtrip_counterexample :
    prices_from_returns false (returns_from_prices false [[(100 : ℝ), 110, 121]]) ≠
      [[(100 : ℝ) / 100, 110 / 100, 121 / 100]] := by
  intro h
  have hlen := congrArg (fun m => (m.headD []).length) h
  simp [prices_from_returns, returns_from_prices, pctChangeCol, setHead1,
    cumprod] at hlen

/-- C4 amended: for every price matrix with positive values and both return
conventions, `prices_from_returns(returns_from_prices(P))` equals `P` with
its first date row dropped and every column normalized by that column's value
in the second date row (i.e. row `t ≥ 1` of the result is `P[t] / P[1]`), so
the result has one row fewer than `P` and the same columns. -/
theorem prices_returns_roundtrip (lg : Bool) (cols : List (List ℝ))
    (hpos : ∀ c ∈ cols, ∀ x ∈ c, (0 : ℝ) < x) :
    prices_from_returns lg (returns_from_prices lg cols) =
      cols.map (fun c => c.tail.map (fun x => x / c.tail.headD 1)) := by
  cases lg with
  | false =>
    rw [show prices_from_returns false (returns_from_prices false cols) =
        cols.map (fun c =>
          cumprod (setHead1 ((pctChangeCol c).map (fun r => 1 + r)))) by
      simp [prices_from_returns, returns_from_prices, List.map_map]]
    exact List.map_congr_left fun c hc => roundtrip_col c (hpos c hc)
  | true =>
    rw [show prices_from_returns true (returns_from_prices true cols) =
        cols.map (fun c => cumprod (setHead1
          (((pctChangeCol c).map (fun r => Real.log (1 + r))).map Real.exp))) by
      simp [prices_from_returns, returns_from_prices, List.map_map]]
    refine List.map_congr_left fun c hc => ?_
    have hexp : ((pctChangeCol c).map (fun r => Real.log (1 + r))).map Real.exp =
        (pctChangeCol c).map (fun r => 1 + r) := by
      rw [List.map_map]
      refine List.map_congr_left fun r hr => ?_
      simp only [Function.comp_apply]
      exact Real.exp_log (mem_pctChangeCol_pos c (hpos c hc) r hr)
    rw [hexp]
    exact roundtrip_col c (hpos c hc)

/-- Witness for the amended C4 at the price column `[1, 2, 4]`: the round
trip yields the column `[1, 2]` (namely `[2/2, 4/2]`). -/
theorem prices_returns_roundtrip_witness :
    prices_from_returns false (returns_from_prices false [[(1 : ℝ), 2, 4]]) =
      [[(1 : ℝ), 2]] := by
  have h := prices_returns_roundtrip false [[(1 : ℝ), 2, 4]] (by
    intro c hc x hx
    rw [List.mem_singleton] at hc
    subst hc
    simp only [List.mem_cons] at hx
    rcases hx with rfl | rfl | rfl | hx
    · norm_num
    · norm_num
    · norm_num
    · simp at hx)
  rw [h]
  norm_num

/-! ### C5 -/

/-- C5: when `capm_return` gets no market series, the market proxy is the
row-wise mean of the asset returns matrix, appended as an extra right-most
column, and entry `t` of that synthesized market column is the cross-sectional
mean of row `t` of the input returns. -/
theorem capm_market_proxy (rets : List (List ℝ)) (t : ℕ)
    (ht : t < (rets.headD []).length) :
    capmCombined none rets = rets ++ [rowMean rets] ∧
    (capmCombined none rets).getLastD [] = rowMean rets ∧
    (capmCombined none rets).dropLast = rets ∧
    (rowMean rets).getD t 0 =
      (rets.map (fun c => c.getD t 0)).sum / (rets.length : ℝ) := by
  refine ⟨rfl, List.getLastD_concat _ _ _, List.dropLast_concat, ?_⟩
  rw [rowMean,
    getD_map_gen (fun s => (rets.map (fun c => c.getD s 0)).sum / (rets.length : ℝ))
      (List.range (rets.headD []).length) t 0 0 (by simpa using ht),
    List.getD_eq_getElem _ _ (by simpa using ht), List.getElem_range]

/-- Witness for C5: for the single returns column `[1, 2]`, the synthesized
market value on the first date equals the row-wise mean `1`. -/
theorem capm_market_proxy_witness : (rowMean [[(1 : ℝ), 2]]).getD 0 0 = 1 := by
  have h := (capm_market_proxy [[(1 : ℝ), 2]] 0 (by norm_num)).2.2.2
  rw [h]
  norm_num

/-! ### C6 -/

lemma map_snd_zipWith_pair :
    ∀ (s : List (ℕ × ℝ)) (r : List (Option ℝ)), s.length = r.length →
      (List.zipWith (fun dr x => (dr.1, x)) s r).map Prod.snd = r := by
  intro s
  induction s with
  | nil =>
    intro r h
    cases r with
    | nil => simp
    | cons x r' => simp at h
  | cons a s' ih =>
    intro r h
    cases r with
    | nil => simp at h
    | cons x r' =>
      simp only [List.zipWith_cons_cons, List.map_cons]
      rw [ih r' (by simpa using h)]

lemma map_fst_zipWith_pair :
    ∀ (s : List (ℕ × ℝ)) (r : List (Option ℝ)), s.length = r.length →
      (List.zipWith (fun dr x => (dr.1, x)) s r).map Prod.fst =
        s.map Prod.fst := by
  intro s
  induction s with
  | nil => intro r _; simp
  | cons a s' ih =>
    intro r h
    cases r with
    | nil => simp at h
    | cons x r' =>
      simp only [List.zipWith_cons_cons, List.map_cons]
      rw [ih r' (by simpa using h)]

lemma zipWith_sub_div (l1 : List ℝ) :
    ∀ l2 : List ℝ, (∀ b ∈ l2, b ≠ 0) →
      List.zipWith (fun cur prev => (cur - prev) / prev) l1 l2 =
        List.zipWith (fun cur prev => cur / prev - 1) l1 l2 := by
  induction l1 with
  | nil => intro l2 _; simp
  | cons c l1' ih =>
    intro l2 h2
    cases l2 with
    | nil => simp
    | cons q l2' =>
      have hq : q ≠ 0 := h2 q (by simp)
      simp only [List.zipWith_cons_cons]
      rw [ih l2' (fun b hb => h2 b (by simp [hb])), sub_div, div_self hq]

/-- C6: for the same positive price series given as a non-distributed column
and as a distributed table of `(date_index, price)` records, the distributed
path of `returns_from_prices` produces, in ascending date order, a null first
cell followed by exactly the values of the non-distributed path, under both
the log and percentage conventions; the date keys are those of the
date-ordered records. -/
theorem spark_pandas_equiv (lg : Bool) (p : List ℝ) (rows : List (ℕ × ℝ))
    (hne : p ≠ []) (hpos : ∀ x ∈ p, (0 : ℝ) < x)
    (hsort : (sortByDate rows).map Prod.snd = p) :
    (sparkReturnsCol lg rows).map Prod.snd =
      none :: ((returns_from_prices lg [p]).headD []).map some ∧
    (sparkReturnsCol lg rows).map Prod.fst =
      (sortByDate rows).map Prod.fst := by
  have hnz : ∀ b ∈ p, b ≠ 0 := fun b hb => ne_of_gt (hpos b hb)
  have hslen : (sortByDate rows).length = p.length := by
    rw [← hsort, List.length_map]
  have hpct : List.zipWith (fun cur prev => (cur - prev) / prev) p.tail p =
      pctChangeCol p := zipWith_sub_div p.tail p hnz
  have hpctlen : (pctChangeCol p).length = p.length - 1 := pctChangeCol_length p
  have hplen : 1 ≤ p.length := by
    cases p with
    | nil => exact absurd rfl hne
    | cons a l => simp
  have hrets : (if lg then
      ((none :: (List.zipWith (fun cur prev => (cur - prev) / prev)
          p.tail p).map some).map (Option.map (fun r => Real.log (1 + r))))
      else
      (none :: (List.zipWith (fun cur prev => (cur - prev) / prev)
          p.tail p).map some)) =
      none :: ((returns_from_prices lg [p]).headD []).map some := by
    cases lg with
    | false =>
      rw [if_neg (by simp), hpct]
      simp [returns_from_prices]
    | true =>
      rw [if_pos rfl, hpct]
      simp only [List.map_cons, Option.map_none, List.map_map]
      have hcomp : (Option.map (fun r => Real.log (1 + r))) ∘ some =
          some ∘ (fun r : ℝ => Real.log (1 + r)) := by
        funext r
        simp
      rw [hcomp, ← List.map_map]
      simp [returns_from_prices, List.map_map]
  have hrlen : (none :: ((returns_from_prices lg [p]).headD []).map some).length =
      (sortByDate rows).length := by
    have hpandas : ((returns_from_prices lg [p]).headD []).length = p.length - 1 := by
      cases lg with
      | false => simp [returns_from_prices, hpctlen]
      | true => simp [returns_from_prices, List.map_map, hpctlen]
    simp only [List.length_cons, List.length_map, hpandas, hslen]
    omega
  constructor
  · rw [sparkReturnsCol]
    simp only [hsort, hrets]
    exact map_snd_zipWith_pair _ _ hrlen.symm
  · rw [sparkReturnsCol]
    simp only [hsort, hrets]
    exact map_fst_zipWith_pair _ _ hrlen.symm

/-- Witness for C6: the two-date series `[1, 2]`, handed to the distributed
path with its records out of order. -/
theorem spark_pandas_equiv_witness :
    (sparkReturnsCol false [((1 : ℕ), (2 : ℝ)), (0, 1)]).map Prod.snd =
      none :: ((returns_from_prices false [[(1 : ℝ), 2]]).headD []).map some ∧
    (sparkReturnsCol false [((1 : ℕ), (2 : ℝ)), (0, 1)]).map Prod.fst =
      (sortByDate [((1 : ℕ), (2 : ℝ)), (0, 1)]).map Prod.fst :=
  spark_pandas_equiv false [1, 2] [((1 : ℕ), (2 : ℝ)), (0, 1)]
    (by simp)
    (by
      intro x hx
      simp only [List.mem_cons] at hx
      rcases hx with rfl | rfl | hx
      · norm_num
      · norm_num
      · simp at hx)
    (by norm_num [sortByDate, insertByDate])

/-! ### C7 -/

/-- C7: when distributed mode is requested, `returns_from_prices` fails
immediately, producing no result, in exactly the two misuse cases — a
non-distributed frame was passed, or the distributed frame lacks its
`date_index` ordering column — and succeeds on a distributed frame that has
the ordering column. -/
theorem returns_from_prices_checked_errors (lg : Bool) (cols : List (List ℝ))
    (scols : List (List (ℕ × ℝ))) :
    returns_from_prices_checked lg true (.pandasDF cols) =
      .error "Loading a non-spark dataframe to a spark session is not supported!" ∧
    returns_from_prices_checked lg true (.sparkDF false scols) =
      .error "Loading a spark dataframe without a 'date_index' column is not supported!" ∧
    returns_from_prices_checked lg true (.sparkDF true scols) =
      .ok (.sparkR (scols.map (sparkReturnsCol lg))) :=
  ⟨rfl, rfl, rfl⟩

/-! ### C8 -/

lemma getLastD_range_map (f : ℕ → ℝ) (n : ℕ) (hn : 0 < n) :
    ((List.range n).map f).getLastD 0 = f (n - 1) := by
  obtain ⟨m, rfl⟩ : ∃ m, n = m + 1 := ⟨n - 1, by omega⟩
  rw [List.range_succ, List.map_append]
  simp [List.getLastD_concat]

lemma ilocLast_ewmMean (span : ℝ) (c : List ℝ) :
    ilocLast (ewmMean span c) = ewmMeanAt (2 / (span + 1)) c (c.length - 1) := by
  rcases Nat.eq_zero_or_pos c.length with hc | hc
  · have hnil : c = [] := List.length_eq_zero.mp hc
    subst hnil
    simp [ilocLast, ewmMean, ewmMeanAt]
  · rw [ilocLast, ewmMean, getLastD_range_map _ _ hc]

/-- C8: `ema_historical_return` on a returns matrix equals, per asset, the
final (most recent) value of the exponentially-weighted moving average with
decay `alpha = 2/(span+1)`, annualized as `(1 + v)^frequency - 1` when
compounding and `v * frequency` otherwise. -/
theorem ema_historical_return_spec (comp : Bool) (span freq : ℝ)
    (rets : List (List ℝ)) (j : ℕ) (hj : j < rets.length) :
    (ema_historical_return true comp span freq rets).getD j 0 =
      (if comp then
        (1 + ewmMeanAt (2 / (span + 1)) (rets.getD j [])
            ((rets.getD j []).length - 1)) ^ freq - 1
      else
        ewmMeanAt (2 / (span + 1)) (rets.getD j [])
          ((rets.getD j []).length - 1) * freq) := by
  cases comp with
  | false =>
    rw [show ema_historical_return true false span freq rets =
        rets.map (fun c => ilocLast (ewmMean span c) * freq) from rfl,
      getD_map_gen (fun c => ilocLast (ewmMean span c) * freq) rets j [] 0 hj,
      ilocLast_ewmMean]
    simp
  | true =>
    rw [show ema_historical_return true true span freq rets =
        rets.map (fun c => (1 + ilocLast (ewmMean span c)) ^ freq - 1) from rfl,
      getD_map_gen (fun c => (1 + ilocLast (ewmMean span c)) ^ freq - 1)
        rets j [] 0 hj,
      ilocLast_ewmMean]
    simp

/-- Witness for C8 at the single-entry returns column `[1/2]` with
`span = 1`, `frequency = 2`, arithmetic annualization. -/
theorem ema_historical_return_spec_witness :
    (ema_historical_return true false 1 2 [[(1 / 2 : ℝ)]]).getD 0 0 =
      (if false then
        (1 + ewmMeanAt (2 / ((1 : ℝ) + 1)) ([[(1 / 2 : ℝ)]].getD 0 [])
            (([[(1 / 2 : ℝ)]].getD 0 []).length - 1)) ^ (2 : ℝ) - 1
      else
        ewmMeanAt (2 / ((1 : ℝ) + 1)) ([[(1 / 2 : ℝ)]].getD 0 [])
          (([[(1 / 2 : ℝ)]].getD 0 []).length - 1) * 2) :=
  ema_historical_return_spec false 1 2 [[(1 / 2 : ℝ)]] 0 (by norm_num)

/-! ### C9 -/

/-- C9: `return_model` routes the three recognized model names to exactly the
corresponding estimator with the keyword arguments forwarded unchanged, and
raises the not-implemented error for every other name. -/
theorem return_model_spec (method : String) (prices : List (List ℝ))
    (kw : Kwargs) (h1 : method ≠ "mean_historical_return")
    (h2 : method ≠ "ema_historical_return") (h3 : method ≠ "capm_return") :
    return_model "mean_historical_return" prices kw =
      .ok (mean_historical_return kw.returnsData kw.compounding kw.frequency
        prices) ∧
    return_model "ema_historical_return" prices kw =
      .ok (ema_historical_return kw.returnsData kw.compounding kw.span
        kw.frequency prices) ∧
    return_model "capm_return" prices kw =
      .ok (capm_return kw.returnsData kw.marketPrices kw.riskFreeRate
        kw.compounding kw.frequency prices) ∧
    return_model method prices kw =
      .error ("Return model " ++ method ++ " not implemented") := by
  refine ⟨?_, ?_, ?_, ?_⟩
  · rw [return_model, if_pos rfl]
  · rw [return_model, if_neg (by decide), if_pos rfl]
  · rw [return_model, if_neg (by decide), if_neg (by decide), if_pos rfl]
  · rw [return_model, if_neg h1, if_neg h2, if_neg h3]

/-- Witness for C9: the unrecognized model name `"foo"` is rejected. -/
theorem return_model_spec_witness :
    return_model "foo" [] (Kwargs.mk true true 1 1 none 0) =
      .error ("Return model " ++ "foo" ++ " not implemented") :=
  (return_model_spec "foo" [] (Kwargs.mk true true 1 1 none 0)
    (by decide) (by decide) (by decide)).2.2.2

/-! ### C10 -/

/-- C10 (code bug): `capm_return` called on returns data with no market
series persists the synthesized market-proxy column into the caller's frame:
for the one-asset returns frame `[[0.1, 0.1]]` the caller's object afterwards
holds the extra `mkt` column (the row-wise mean), so the input is not left
unchanged. -/
theorem capm_mutates_returns_data_input :
    capm_caller_prices_after true none [[(1 / 10 : ℝ), 1 / 10]] =
      [[(1 / 10 : ℝ), 1 / 10], [1 / 10, 1 / 10]] ∧
    capm_caller_prices_after true none [[(1 / 10 : ℝ), 1 / 10]] ≠
      [[(1 / 10 : ℝ), 1 / 10]] := by
  have heq : capm_caller_prices_after true none [[(1 / 10 : ℝ), 1 / 10]] =
      [[(1 / 10 : ℝ), 1 / 10], [1 / 10, 1 / 10]] := by
    rw [show capm_caller_prices_after true none [[(1 / 10 : ℝ), 1 / 10]] =
      [[(1 / 10 : ℝ), 1 / 10]] ++ [rowMean [[(1 / 10 : ℝ), 1 / 10]]] from rfl]
    norm_num [rowMean, List.range_succ]
  refine ⟨heq, ?_⟩
  rw [heq]
  intro h
  have hlen := congrArg List.length h
  simp at hlen

end

end PyPfOpt
